import Mathlib

/-!
Verification of the l10n-glossary core: the `Term`/`Glossary` data model with
its `merge` operation (glossary.py) and the consistency checker over PO and TS
translation files (consistency.py).  Python code is embedded shallowly:
mutation becomes explicit state passing, file I/O becomes an abstract
filesystem map, and the two regular expressions of the PO checker are compiled
to deterministic scanners (both patterns are backtracking-free, as argued in
the comments at their definitions).
-/

namespace L10n

/-- Data model of glossary.py: `@dataclass class Term`, five string fields,
all defaulting to the empty string. -/
structure Term where
  source : String := ""
  target : String := ""
  language : String := ""
  context : String := ""
  comment : String := ""
deriving DecidableEq, Repr

/-- Data model of glossary.py: `@dataclass class Glossary` holding a list of
terms. -/
structure Glossary where
  terms : List Term := []
deriving DecidableEq, Repr

/-- The dedup identity used by `Glossary.merge`: `(t.source, t.target,
t.language)`. -/
def Term.triple (t : Term) : String × String × String :=
  (t.source, t.target, t.language)

/-- Explicit state of the `merge` loop: the mutable `self.terms`, the (only
read) `other.terms`, the `existing` set of triples (membership is all the
Python set is used for, so a list suffices) and the `added` counter. -/
structure MergeState where
  selfTerms : List Term
  otherTerms : List Term
  existing : List (String × String × String)
  added : Nat
deriving DecidableEq, Repr

/-- One iteration of the `for t in other.terms` loop body of
`Glossary.merge`. -/
def mergeStep (st : MergeState) (t : Term) : MergeState :=
  if t.triple ∈ st.existing then st
  else { st with
    selfTerms := st.selfTerms ++ [t]
    existing := t.triple :: st.existing
    added := st.added + 1 }

/-- The `for t in other.terms` loop of `Glossary.merge`. -/
def mergeLoop : MergeState → List Term → MergeState
  | st, [] => st
  | st, t :: rest => mergeLoop (mergeStep st t) rest

/-- Runs `Glossary.merge`'s loop from its initial state: `existing` seeded
with the triples of `self.terms`, `added = 0`. -/
def mergeRun (a b : Glossary) : MergeState :=
  mergeLoop
    { selfTerms := a.terms
      otherTerms := b.terms
      existing := a.terms.map Term.triple
      added := 0 }
    b.terms

/-- `Glossary.merge(self, other)`: the final `self` together with the returned
count of appended terms. -/
def Glossary.merge (a b : Glossary) : Glossary × Nat :=
  (Glossary.mk (mergeRun a b).selfTerms, (mergeRun a b).added)

/-- The claim's characterisation of what `merge` appends: those terms of the
second glossary, in order, whose triple is neither in `seen` (initially the
first glossary's triples) nor equal to the triple of an earlier kept term. -/
def specAppended : List (String × String × String) → List Term → List Term
  | _, [] => []
  | seen, t :: rest =>
    if t.triple ∈ seen then specAppended seen rest
    else t :: specAppended (t.triple :: seen) rest

/-- The whitespace set of Python's `str.isspace` and of `\s` in the `re`
module for text patterns: ASCII whitespace plus the Unicode space
characters. -/
def isPySpace (c : Char) : Bool :=
  let n := c.toNat
  (9 ≤ n && n ≤ 13) || n == 32 || (28 ≤ n && n ≤ 31) || n == 133 || n == 160 ||
  n == 0x1680 || (0x2000 ≤ n && n ≤ 0x200a) || n == 0x2028 || n == 0x2029 ||
  n == 0x202f || n == 0x205f || n == 0x3000

/-- Python `str.lower()`, character by character (exact on the ASCII range the
checker's own literals use; applied uniformly wherever the source calls
`.lower()`). -/
def pyLower (s : String) : String := String.mk (s.data.map Char.toLower)

/-- Python `str.strip()`: remove leading and trailing whitespace. -/
def pyStrip (s : String) : String :=
  String.mk (((s.data.dropWhile isPySpace).reverse.dropWhile isPySpace).reverse)

/-- Python `s[:80]`: the first at most 80 characters. -/
def pyTrunc80 (s : String) : String := String.mk (s.data.take 80)

/-- Python's substring test `needle in hay` on character lists. -/
def containsSub (needle : List Char) : List Char → Bool
  | [] => needle.isEmpty
  | c :: rest => needle.isPrefixOf (c :: rest) || containsSub needle rest

/-- Python's substring test `needle in hay` on strings. -/
def strContains (hay needle : String) : Bool := containsSub needle.data hay.data

/-- Python `s.replace("\\n", "\n")`: left-to-right, non-overlapping. -/
def unescapeN : List Char → List Char
  | [] => []
  | [c] => [c]
  | c1 :: c2 :: rest =>
    if c1 = '\\' ∧ c2 = 'n' then '\n' :: unescapeN rest
    else c1 :: unescapeN (c2 :: rest)

/-- Python `s.replace("\\\"", "\"")`: left-to-right, non-overlapping. -/
def unescapeQ : List Char → List Char
  | [] => []
  | [c] => [c]
  | c1 :: c2 :: rest =>
    if c1 = '\\' ∧ c2 = '"' then '"' :: unescapeQ rest
    else c1 :: unescapeQ (c2 :: rest)

/-- The `msgid.replace("\\n", "\n").replace("\\\"", "\"")` cleanup applied to
each captured PO string literal. -/
def unescape (s : String) : String := String.mk (unescapeQ (unescapeN s.data))

/-- The `expected` mapping of both checkers: a Python dict from lower-cased
term source to the list of terms sharing it, preserving dict insertion
order. -/
abbrev Expected := List (String × List Term)

/-- Python `expected.setdefault(k, []).append(t)` on the insertion-ordered
association list. -/
def setdefaultAppend : Expected → String → Term → Expected
  | [], k, t => [(k, [t])]
  | (k0, ts) :: rest, k, t =>
    if k0 = k then (k0, ts ++ [t]) :: rest
    else (k0, ts) :: setdefaultAppend rest k t

/-- The language filter of both checkers:
`not lang or term.language == lang or not term.language`. -/
def admitted (lang : String) (t : Term) : Bool :=
  decide (lang = "" ∨ t.language = lang ∨ t.language = "")

/-- The `for term in glossary.terms` loop building `expected`. -/
def buildExpectedAux (lang : String) : Expected → List Term → Expected
  | acc, [] => acc
  | acc, t :: rest =>
    buildExpectedAux lang
      (if admitted lang t then setdefaultAppend acc (pyLower t.source) t else acc)
      rest

/-- The `expected` lookup built by `_check_po` and `_check_ts`. -/
def buildExpected (terms : List Term) (lang : String) : Expected :=
  buildExpectedAux lang [] terms

/-- One reported inconsistency: the dict
`{"source": ..., "expected": ..., "found": ...}` appended to `issues`. -/
structure Issue where
  source : String
  expected : String
  found : String
deriving DecidableEq, Repr

/-- The emission condition of both checkers:
`term.target.lower() not in <translated>.lower() and term.target`. -/
def issueCond (mstrClean : String) (t : Term) : Bool :=
  !(strContains (pyLower mstrClean) (pyLower t.target)) && !(t.target == "")

/-- The issue dict built by both checkers, with `found` truncated to 80
characters of the translated text. -/
def mkIssue (mstrClean : String) (t : Term) : Issue :=
  { source := t.source, expected := t.target, found := pyTrunc80 mstrClean }

/-- The `for term in term_list` loop of both checkers. -/
def termIssues (mstrClean : String) : List Term → List Issue
  | [] => []
  | t :: rest =>
    if issueCond mstrClean t then mkIssue mstrClean t :: termIssues mstrClean rest
    else termIssues mstrClean rest

/-- The `for term_key, term_list in expected.items()` loop of both checkers:
keys whose text occurs in the lower-cased entry source contribute their term
issues. -/
def keyIssues (midClean mstrClean : String) : Expected → List Issue
  | [] => []
  | (k, ts) :: rest =>
    if strContains (pyLower midClean) k then
      termIssues mstrClean ts ++ keyIssues midClean mstrClean rest
    else keyIssues midClean mstrClean rest

/-- One iteration of `_check_po`'s entry loop: skip the entry when either
captured literal is empty, otherwise unescape both and match. -/
def poEntryIssues (expected : Expected) (msgid msgstr : String) : List Issue :=
  if msgid = "" ∨ msgstr = "" then []
  else keyIssues (unescape msgid) (unescape msgstr) expected

/-- The `for msgid, msgstr in entries` loop of `_check_po`, collecting issues
in entry order. -/
def poEntriesIssues (expected : Expected) : List (String × String) → List Issue
  | [] => []
  | (mid, mstr) :: rest =>
    poEntryIssues expected mid mstr ++ poEntriesIssues expected rest

/-- One attempt of the language regex at a fixed position: the pattern
`Language:\s*(\S+)` matches here exactly when the literal is a prefix and,
after greedily skipping whitespace, at least one non-whitespace character
follows; the capture is the maximal non-whitespace run (the pattern is
backtracking-free at a fixed position). -/
def langTokenAt (s : List Char) : Option (List Char) :=
  if ("Language:".data).isPrefixOf s then
    let tok := ((s.drop 9).dropWhile isPySpace).takeWhile (fun c => !isPySpace c)
    if tok.isEmpty then none else some tok
  else none

/-- `re.search(r"Language:\s*(\S+)", content)`: leftmost position whose
attempt succeeds; group 1, or the empty string when there is no match. -/
def detectLangAux : List Char → String
  | [] => ""
  | c :: rest =>
    match langTokenAt (c :: rest) with
    | some tok => String.mk tok
    | none => detectLangAux rest

/-- Language detection of `_check_po`. -/
def detectLang (content : String) : String := detectLangAux content.data

/-- The string-literal group `(?:[^"\\]|\\.)*` followed by the closing quote:
from any position the next item is forced (a backslash can only start `\\.`,
which fails on a following newline since `.` excludes it; a quote ends the
group; any other character is consumed), so the scan is deterministic.
Returns the group's text and the input after the closing quote. -/
def scanGroup : List Char → Option (List Char × List Char)
  | [] => none
  | '"' :: rest => some ([], rest)
  | ['\\'] => none
  | '\\' :: c :: rest =>
    if c = '\n' then none
    else
      match scanGroup rest with
      | none => none
      | some (g, r) => some ('\\' :: c :: g, r)
  | c :: rest =>
    match scanGroup rest with
    | none => none
    | some (g, r) => some (c :: g, r)

/-- The tail `msgstr\s+"(group)"` of the entry pattern at a fixed position:
the literal, at least one whitespace character (greedy, so the maximal run,
whose end must be the opening quote), then the quoted group. -/
def msgstrAt (s : List Char) : Option (List Char × List Char) :=
  if ("msgstr".data).isPrefixOf s then
    let after := s.drop 6
    if (after.takeWhile isPySpace).isEmpty then none
    else
      match after.dropWhile isPySpace with
      | '"' :: rest => scanGroup rest
      | _ => none
  else none

/-- The lazy line-skipper `(?:.*?\n)*?` before `msgstr`: starting at a line
start, try the msgstr tail, otherwise drop one whole line (up to and
including its newline) and retry; without a further newline there is no
complete line left and the whole attempt fails.  Fuel bounds the number of
skipped lines by the remaining input length. -/
def findMsgstr : Nat → List Char → Option (List Char × List Char)
  | 0, _ => none
  | fuel + 1, s =>
    match msgstrAt s with
    | some r => some r
    | none =>
      match s.dropWhile (fun c => c != '\n') with
      | [] => none
      | _ :: t => findMsgstr fuel t

/-- One attempt of the entry pattern
`msgid\s+"(g1)"\s*\n(?:.*?\n)*?msgstr\s+"(g2)"` at a fixed position.  After
the first group, `\s*\n` succeeds exactly when the maximal whitespace run
contains a newline; line starts between its first and last newline are
whitespace-only and can never begin `msgstr`, so scanning lines from the
first newline onward realises every backtracking choice in order. -/
def matchEntry (fuel : Nat) (s : List Char) :
    Option (List Char × List Char × List Char) :=
  if ("msgid".data).isPrefixOf s then
    let after := s.drop 5
    if (after.takeWhile isPySpace).isEmpty then none
    else
      match after.dropWhile isPySpace with
      | '"' :: rest0 =>
        match scanGroup rest0 with
        | none => none
        | some (g1, rest1) =>
          if (rest1.takeWhile isPySpace).contains '\n' then
            match rest1.dropWhile (fun c => c != '\n') with
            | [] => none
            | _ :: rest2 =>
              match findMsgstr fuel rest2 with
              | none => none
              | some (g2, rest3) => some (g1, g2, rest3)
          else none
      | _ => none
  else none

/-- `re.findall(entryPattern, content)`: scan left to right, emit each
non-overlapping match's groups and continue after its end.  Every step
consumes at least one character, so fuel one beyond the content length is
never exhausted. -/
def poFindAll : Nat → List Char → List (String × String)
  | 0, _ => []
  | _, [] => []
  | fuel + 1, c :: rest =>
    match matchEntry fuel (c :: rest) with
    | some (g1, g2, r) => (String.mk g1, String.mk g2) :: poFindAll fuel r
    | none => poFindAll fuel rest

/-- The `entries` list of `_check_po`. -/
def parseEntries (content : String) : List (String × String) :=
  poFindAll (content.length + 1) content.data

/-- `_check_po` after the file content has been read. -/
def checkPoContent (g : Glossary) (content : String) : List Issue :=
  poEntriesIssues (buildExpected g.terms (detectLang content)) (parseEntries content)

/-- A parsed markup element as `_check_ts` consumes it from lxml: tag,
attributes, the text directly inside the element, child elements. -/
inductive XElem where
  | elem (tag : String) (attrs : List (String × String)) (text : Option String)
      (children : List XElem)

def XElem.tag : XElem → String
  | .elem t _ _ _ => t

def XElem.attrs : XElem → List (String × String)
  | .elem _ a _ _ => a

def XElem.text : XElem → Option String
  | .elem _ _ x _ => x

def XElem.children : XElem → List XElem
  | .elem _ _ _ ch => ch

/-- lxml `element.get(name, default)`: the attribute's value, else the
default. -/
def XElem.get (e : XElem) (name dflt : String) : String :=
  match e.attrs.find? (fun p => p.1 == name) with
  | some p => p.2
  | none => dflt

/-- lxml `element.find(tag)`: the first direct child with the tag. -/
def XElem.findChild (e : XElem) (tg : String) : Option XElem :=
  e.children.find? (fun c => c.tag == tg)

mutual

/-- All proper descendants of an element in document (preorder) order, as
`root.findall(".//tag")` enumerates them before tag filtering. -/
def descendants : XElem → List XElem
  | .elem _ _ _ ch => descList ch

def descList : List XElem → List XElem
  | [] => []
  | c :: rest => c :: (descendants c ++ descList rest)

end

/-- One iteration of `_check_ts`'s message loop: skip when either child is
absent or either stripped text is empty, otherwise match. -/
def tsEntryIssues (expected : Expected) (msg : XElem) : List Issue :=
  match msg.findChild "source", msg.findChild "translation" with
  | some se, some te =>
    if pyStrip (se.text.getD "") = "" ∨ pyStrip (te.text.getD "") = "" then []
    else keyIssues (pyStrip (se.text.getD "")) (pyStrip (te.text.getD "")) expected
  | _, _ => []

/-- The `for message in root.findall(".//message")` loop of `_check_ts`. -/
def tsMessagesIssues (expected : Expected) : List XElem → List Issue
  | [] => []
  | m :: rest => tsEntryIssues expected m ++ tsMessagesIssues expected rest

/-- `_check_ts` after the document has been parsed: language from the root's
`language` attribute (empty if absent), then the message loop. -/
def checkTsRoot (g : Glossary) (root : XElem) : List Issue :=
  tsMessagesIssues (buildExpected g.terms (root.get "language" ""))
    ((descendants root).filter (fun e => e.tag == "message"))

/-- Python `str.rfind(c)`: index of the last occurrence, `-1` if absent. -/
def pyRfind (c : Char) : List Char → Int
  | [] => -1
  | x :: rest =>
    let r := pyRfind c rest
    if r ≥ 0 then r + 1 else if x = c then 0 else -1

/-- The loop of CPython's `splitext` that skips leading dots of the basename:
it returns early at the first non-dot character, i.e. it is true exactly when
some position in `[i, dot)` holds a non-dot character. -/
def splitextCheck (p : List Char) (i dot : Nat) : Bool :=
  ((p.drop i).take (dot - i)).any (fun c => c != '.')

/-- CPython `posixpath.splitext`: split at the last dot after the last
separator, unless every basename character before that dot is a dot. -/
def splitext (path : String) : String × String :=
  let p := path.data
  let sepIndex := pyRfind '/' p
  let dotIndex := pyRfind '.' p
  if sepIndex < dotIndex then
    if splitextCheck p (sepIndex + 1).toNat dotIndex.toNat then
      (String.mk (p.take dotIndex.toNat), String.mk (p.drop dotIndex.toNat))
    else (path, "")
  else (path, "")

/-- The file reads of the two checkers, abstracted: `open(path).read()` for
PO and `etree.parse(path)` for TS, each either succeeding or failing. -/
structure FileSystem where
  readText : String → Option String
  parseXml : String → Option XElem

/-- The error outcomes of `check_consistency`: the explicit
`ValueError(message)` for an unsupported extension, a failed file read, a
failed markup parse. -/
inductive CheckError where
  | valueError (msg : String)
  | ioError
  | parseError

/-- `"Unsupported file format: {}".format(ext)`. -/
def unsupportedMessage (ext : String) : String :=
  "Unsupported file format: " ++ ext

/-- `check_consistency(glossary, path)`: dispatch on the lower-cased
extension of the path string, reading the file only in the two supported
branches. -/
def check_consistency (g : Glossary) (path : String) (fs : FileSystem) :
    Except CheckError (List Issue) :=
  let ext := pyLower (splitext path).2
  if ext = ".po" then
    match fs.readText path with
    | none => .error .ioError
    | some content => .ok (checkPoContent g content)
  else if ext = ".ts" then
    match fs.parseXml path with
    | none => .error .parseError
    | some root => .ok (checkTsRoot g root)
  else .error (.valueError (unsupportedMessage ext))

/-- All suffixes of a character list, longest first: the candidate positions
of `re.search`. -/
def suffixes : List Char → List (List Char)
  | [] => [[]]
  | c :: rest => (c :: rest) :: suffixes rest

/-- The claim's reading of language detection: the token of the first
position, scanning left to right, where `Language:` is followed (after
whitespace) by a non-whitespace token; the empty string when no position
matches. -/
def detectLangSpec (content : String) : String :=
  match (suffixes content.data).filterMap langTokenAt with
  | [] => ""
  | tok :: _ => String.mk tok

/-- First-occurrence deduplication, skipping keys already in `seen`. -/
def dedupFrom : List String → List String → List String
  | _, [] => []
  | seen, k :: rest =>
    if k ∈ seen then dedupFrom seen rest else k :: dedupFrom (k :: seen) rest

/-- The lower-cased sources of the language-admitted terms, in glossary
order. -/
def loweredSources (terms : List Term) (lang : String) : List String :=
  (terms.filter (admitted lang)).map (fun t => pyLower t.source)

/-- The claim's key order: first occurrence of each lower-cased admitted
source, in glossary order. -/
def specKeys (terms : List Term) (lang : String) : List String :=
  dedupFrom [] (loweredSources terms lang)

/-- The claim's per-key candidate list: the admitted terms with that
lower-cased source, in glossary order. -/
def specCandidates (terms : List Term) (lang : String) (k : String) : List Term :=
  (terms.filter (admitted lang)).filter (fun t => pyLower t.source == k)

/-- The claim's pinned order of one entry's issues: keys in first-occurrence
order, candidates within a key in glossary order. -/
def pinnedEntryIssues (terms : List Term) (lang midClean mstrClean : String) :
    List Issue :=
  ((specKeys terms lang).map fun k =>
    if strContains (pyLower midClean) k then
      ((specCandidates terms lang k).map fun t =>
        if issueCond mstrClean t then [mkIssue mstrClean t] else []).flatten
    else []).flatten

/-- The claim's pinned order of a PO run: entries in document order, each
contributing its pinned issues. -/
def checkPoSpecOrder (g : Glossary) (content : String) : List Issue :=
  ((parseEntries content).map fun e =>
    if e.1 = "" ∨ e.2 = "" then []
    else pinnedEntryIssues g.terms (detectLang content) (unescape e.1) (unescape e.2)).flatten

/-- The claim's pinned order of one TS message's issues. -/
def tsEntrySpecOrder (terms : List Term) (lang : String) (msg : XElem) :
    List Issue :=
  match msg.findChild "source", msg.findChild "translation" with
  | some se, some te =>
    if pyStrip (se.text.getD "") = "" ∨ pyStrip (te.text.getD "") = "" then []
    else pinnedEntryIssues terms lang (pyStrip (se.text.getD ""))
      (pyStrip (te.text.getD ""))
  | _, _ => []

/-- The claim's pinned order of a TS run: messages in document order, each
contributing its pinned issues. -/
def checkTsSpecOrder (g : Glossary) (root : XElem) : List Issue :=
  (((descendants root).filter fun e => e.tag == "message").map
    (tsEntrySpecOrder g.terms (root.get "language" ""))).flatten

end L10n

namespace L10n

theorem mergeLoop_spec (l : List Term) : ∀ st : MergeState,
    (mergeLoop st l).selfTerms = st.selfTerms ++ specAppended st.existing l ∧
    (mergeLoop st l).added = st.added + (specAppended st.existing l).length ∧
    (mergeLoop st l).otherTerms = st.otherTerms ∧
    (mergeLoop st l).existing =
      ((specAppended st.existing l).map Term.triple).reverse ++ st.existing := by
  induction l with
  | nil => intro st; simp [mergeLoop, specAppended]
  | cons t rest ih =>
    intro st
    by_cases h : t.triple ∈ st.existing
    · have hstep : mergeStep st t = st := by simp [mergeStep, h]
      simpa [mergeLoop, hstep, specAppended, h] using ih st
    · have hstep : mergeStep st t =
        { st with
          selfTerms := st.selfTerms ++ [t]
          existing := t.triple :: st.existing
          added := st.added + 1 } := by simp [mergeStep, h]
      have := ih (mergeStep st t)
      rw [hstep] at this
      obtain ⟨h1, h2, h3, h4⟩ := this
      refine ⟨?_, ?_, ?_, ?_⟩
      · simp [mergeLoop, hstep, specAppended, h, h1, List.append_assoc]
      · simp [mergeLoop, hstep, specAppended, h, h2]
        omega
      · simpa [mergeLoop, hstep, specAppended, h] using h3
      · simp [mergeLoop, hstep, specAppended, h, h4, List.append_assoc]

/-- If every triple of the list is already in `seen`, nothing is kept. -/
theorem specAppended_eq_nil {seen : List (String × String × String)}
    {l : List Term} (h : ∀ t ∈ l, t.triple ∈ seen) :
    specAppended seen l = [] := by
  induction l with
  | nil => rfl
  | cons t rest ih =>
    have ht : t.triple ∈ seen := h t (List.mem_cons_self t rest)
    simp only [specAppended, if_pos ht]
    exact ih fun u hu => h u (List.mem_cons_of_mem t hu)

/-- Every triple of the input list ends up either already-seen or among the
triples of the kept terms. -/
theorem specAppended_covers : ∀ (l : List Term)
    (seen : List (String × String × String)) (t : Term), t ∈ l →
    t.triple ∈ seen ∨ t.triple ∈ (specAppended seen l).map Term.triple := by
  intro l
  induction l with
  | nil => intro seen t ht; cases ht
  | cons u rest ih =>
    intro seen t ht
    by_cases h : u.triple ∈ seen
    · rcases List.mem_cons.mp ht with rfl | hmem
      · exact Or.inl h
      · simpa [specAppended, h] using ih seen t hmem
    · rcases List.mem_cons.mp ht with rfl | hmem
      · right; simp [specAppended, h]
      · rcases ih (u.triple :: seen) t hmem with hs | ha
        · rcases List.mem_cons.mp hs with heq | hs'
          · right; simp [specAppended, h, heq]
          · exact Or.inl hs'
        · right; simp [specAppended, h]
          right
          simpa using ha

theorem glossary_mk_terms (g : Glossary) : Glossary.mk g.terms = g := by
  cases g; rfl

/-- Claim C2: after `a.merge(b)`, the terms of `a` are its original sequence
followed by exactly those terms of `b.terms`, in `b`'s order, whose triple is
neither among `a`'s original triples nor equal to the triple of an earlier
appended term; the returned integer is the number of appended terms. -/
theorem merge_characterisation (a b : Glossary) :
    (Glossary.merge a b).1.terms =
      a.terms ++ specAppended (a.terms.map Term.triple) b.terms ∧
    (Glossary.merge a b).2 =
      (specAppended (a.terms.map Term.triple) b.terms).length := by
  obtain ⟨h1, h2, _, _⟩ := mergeLoop_spec b.terms
    { selfTerms := a.terms
      otherTerms := b.terms
      existing := a.terms.map Term.triple
      added := 0 }
  exact ⟨by simpa [Glossary.merge, mergeRun] using h1,
         by simpa [Glossary.merge, mergeRun] using h2⟩

/-- Claim C5: merging the same glossary twice is the same as once — the second
`merge` returns 0, appends nothing, and leaves the terms as the first call
left them. -/
theorem merge_idempotent (a b : Glossary) :
    Glossary.merge (Glossary.merge a b).1 b = ((Glossary.merge a b).1, 0) := by
  obtain ⟨h1, _, _, _⟩ := mergeLoop_spec b.terms
    { selfTerms := a.terms
      otherTerms := b.terms
      existing := a.terms.map Term.triple
      added := 0 }
  set a1 : Glossary := (Glossary.merge a b).1 with ha1
  have hterms : a1.terms =
      a.terms ++ specAppended (a.terms.map Term.triple) b.terms := by
    simpa [Glossary.merge, mergeRun, ha1] using h1
  have hcover : ∀ t ∈ b.terms, t.triple ∈ a1.terms.map Term.triple := by
    intro t ht
    rcases specAppended_covers b.terms (a.terms.map Term.triple) t ht with hs | ha
    · rw [hterms]; simpa using Or.inl hs
    · rw [hterms]; simpa using Or.inr ha
  have hnil : specAppended (a1.terms.map Term.triple) b.terms = [] :=
    specAppended_eq_nil hcover
  obtain ⟨g1, g2, _, _⟩ := mergeLoop_spec b.terms
    { selfTerms := a1.terms
      otherTerms := b.terms
      existing := a1.terms.map Term.triple
      added := 0 }
  have hself : (mergeRun a1 b).selfTerms = a1.terms := by
    simpa [mergeRun, hnil] using g1
  have hadd : (mergeRun a1 b).added = 0 := by
    simpa [mergeRun, hnil] using g2
  show (Glossary.mk (mergeRun a1 b).selfTerms, (mergeRun a1 b).added) = (a1, 0)
  rw [hself, hadd, glossary_mk_terms]

/-- Claim C7: `a.merge(b)` does not modify `b` — the loop state's view of
`other.terms` after the run is the very list it started with, so `b` still
holds the same terms, in the same order, with all five fields of every term
unchanged. -/
theorem merge_preserves_other (a b : Glossary) :
    (mergeRun a b).otherTerms = b.terms := by
  obtain ⟨_, _, h3, _⟩ := mergeLoop_spec b.terms
    { selfTerms := a.terms
      otherTerms := b.terms
      existing := a.terms.map Term.triple
      added := 0 }
  simpa [mergeRun] using h3

theorem string_mk_data (s : String) : String.mk s.data = s := by
  cases s; rfl

theorem isPrefixOf_self : ∀ l : List Char, l.isPrefixOf l = true := by
  intro l
  induction l with
  | nil => rfl
  | cons c rest ih => simp [List.isPrefixOf, ih]

theorem containsSub_append_self (needle : List Char) :
    ∀ pre : List Char, containsSub needle (pre ++ needle) = true := by
  intro pre
  induction pre with
  | nil =>
    cases needle with
    | nil => rfl
    | cons c rest => simp [containsSub, isPrefixOf_self]
  | cons p pre ih => simp [containsSub, ih]

theorem containsSub_nil_needle : ∀ hay : List Char, containsSub [] hay = true := by
  intro hay
  cases hay with
  | nil => rfl
  | cons c rest => simp [containsSub, List.isPrefixOf]

theorem mem_termIssues {mstr : String} {i : Issue} : ∀ ts : List Term,
    (i ∈ termIssues mstr ts ↔ ∃ t, t ∈ ts ∧ issueCond mstr t = true ∧ i = mkIssue mstr t) := by
  intro ts
  induction ts with
  | nil => simp [termIssues]
  | cons t rest ih =>
    by_cases h : issueCond mstr t
    · simp only [termIssues, if_pos h, List.mem_cons, ih]
      constructor
      · rintro (rfl | ⟨u, hu, hc, rfl⟩)
        · exact ⟨t, Or.inl rfl, h, rfl⟩
        · exact ⟨u, Or.inr hu, hc, rfl⟩
      · rintro ⟨u, (rfl | hu), hc, rfl⟩
        · exact Or.inl rfl
        · exact Or.inr ⟨u, hu, hc, rfl⟩
    · simp only [termIssues, if_neg h, ih]
      constructor
      · rintro ⟨u, hu, hc, rfl⟩
        exact ⟨u, List.mem_cons_of_mem t hu, hc, rfl⟩
      · rintro ⟨u, hu, hc, rfl⟩
        rcases List.mem_cons.mp hu with rfl | hu'
        · exact absurd hc h
        · exact ⟨u, hu', hc, rfl⟩

theorem mem_keyIssues {mid mstr : String} {i : Issue} : ∀ m : Expected,
    (i ∈ keyIssues mid mstr m ↔
      ∃ k ts, (k, ts) ∈ m ∧ strContains (pyLower mid) k = true ∧
        i ∈ termIssues mstr ts) := by
  intro m
  induction m with
  | nil => simp [keyIssues]
  | cons p rest ih =>
    obtain ⟨k0, ts0⟩ := p
    by_cases h : strContains (pyLower mid) k0
    · simp only [keyIssues, if_pos h, List.mem_append, ih, List.mem_cons]
      constructor
      · rintro (hi | ⟨k, ts, hm, hc, hi⟩)
        · exact ⟨k0, ts0, Or.inl rfl, h, hi⟩
        · exact ⟨k, ts, Or.inr hm, hc, hi⟩
      · rintro ⟨k, ts, (heq | hm), hc, hi⟩
        · obtain ⟨rfl, rfl⟩ := Prod.mk.injEq .. ▸ heq
          exact Or.inl hi
        · exact Or.inr ⟨k, ts, hm, hc, hi⟩
    · simp only [keyIssues, if_neg h, ih, List.mem_cons]
      constructor
      · rintro ⟨k, ts, hm, hc, hi⟩
        exact ⟨k, ts, Or.inr hm, hc, hi⟩
      · rintro ⟨k, ts, (heq | hm), hc, hi⟩
        · obtain ⟨rfl, rfl⟩ := Prod.mk.injEq .. ▸ heq
          exact absurd hc h
        · exact ⟨k, ts, hm, hc, hi⟩

theorem setdefault_keys_mem {k : String} {t : Term} : ∀ acc : Expected,
    k ∈ acc.map Prod.fst →
    (setdefaultAppend acc k t).map Prod.fst = acc.map Prod.fst := by
  intro acc
  induction acc with
  | nil => intro h; simp at h
  | cons p rest ih =>
    intro h
    obtain ⟨k0, ts0⟩ := p
    by_cases hk : k0 = k
    · simp [setdefaultAppend, hk]
    · have hmem : k ∈ rest.map Prod.fst := by
        rcases List.mem_cons.mp h with heq | hm
        · exact absurd heq.symm hk
        · exact hm
      simp [setdefaultAppend, hk, ih hmem]

theorem setdefault_not_mem {k : String} {t : Term} : ∀ acc : Expected,
    k ∉ acc.map Prod.fst →
    setdefaultAppend acc k t = acc ++ [(k, [t])] := by
  intro acc
  induction acc with
  | nil => intro _; rfl
  | cons p rest ih =>
    intro h
    obtain ⟨k0, ts0⟩ := p
    have hk : ¬ k0 = k := by
      intro heq; exact h (by simp [heq])
    have hmem : k ∉ rest.map Prod.fst := by
      intro hm; exact h (by simp [hm])
    simp [setdefaultAppend, hk, ih hmem]

theorem setdefault_map (k : String) (t : Term) (f g : String → List Term)
    (hk : g k = t :: f k) (hne : ∀ k', k' ≠ k → g k' = f k') :
    ∀ acc : Expected, (acc.map Prod.fst).Nodup → k ∈ acc.map Prod.fst →
    (setdefaultAppend acc k t).map (fun p => (p.1, p.2 ++ f p.1)) =
      acc.map (fun p => (p.1, p.2 ++ g p.1)) := by
  intro acc
  induction acc with
  | nil => intro _ h; simp at h
  | cons p rest ih =>
    intro hnd hmem
    obtain ⟨k0, ts0⟩ := p
    simp only [List.map_cons, List.nodup_cons] at hnd
    by_cases h : k0 = k
    · subst h
      have htail : rest.map (fun p => (p.1, p.2 ++ f p.1)) =
          rest.map (fun p => (p.1, p.2 ++ g p.1)) := by
        refine List.map_congr_left ?_
        intro q hq
        have : q.1 ≠ k0 := by
          intro heq
          exact hnd.1 (heq ▸ List.mem_map_of_mem Prod.fst hq)
        rw [hne q.1 this]
      simp [setdefaultAppend, hk, htail, List.append_assoc]
    · have hmem' : k ∈ rest.map Prod.fst := by
        rcases List.mem_cons.mp hmem with heq | hm
        · exact absurd heq.symm h
        · exact hm
      simp [setdefaultAppend, h, hne k0 h, ih hnd.2 hmem']

theorem mem_dedupFrom {k : String} : ∀ (l seen : List String),
    (k ∈ dedupFrom seen l ↔ k ∈ l ∧ k ∉ seen) := by
  intro l
  induction l with
  | nil => intro seen; simp [dedupFrom]
  | cons k0 rest ih =>
    intro seen
    by_cases h : k0 ∈ seen
    · rw [dedupFrom, if_pos h, ih]
      simp only [List.mem_cons]
      constructor
      · rintro ⟨hm, hs⟩; exact ⟨Or.inr hm, hs⟩
      · rintro ⟨(rfl | hm), hs⟩
        · exact absurd h hs
        · exact ⟨hm, hs⟩
    · rw [dedupFrom, if_neg h]
      simp only [List.mem_cons, ih, not_or]
      constructor
      · rintro (rfl | ⟨hm, hne, hs⟩)
        · exact ⟨Or.inl rfl, h⟩
        · exact ⟨Or.inr hm, hs⟩
      · rintro ⟨(rfl | hm), hs⟩
        · exact Or.inl rfl
        · by_cases hkk : k = k0
          · exact Or.inl hkk
          · exact Or.inr ⟨hm, hkk, hs⟩

theorem dedupFrom_congr_seen : ∀ (l s1 s2 : List String),
    (∀ x, x ∈ s1 ↔ x ∈ s2) → dedupFrom s1 l = dedupFrom s2 l := by
  intro l
  induction l with
  | nil => intro s1 s2 _; rfl
  | cons k0 rest ih =>
    intro s1 s2 hiff
    by_cases h : k0 ∈ s1
    · rw [dedupFrom, if_pos h, dedupFrom, if_pos ((hiff k0).mp h)]
      exact ih s1 s2 hiff
    · rw [dedupFrom, if_neg h, dedupFrom, if_neg (fun hx => h ((hiff k0).mpr hx))]
      refine congrArg (k0 :: ·) (ih _ _ ?_)
      intro x
      simp [hiff x]

theorem specCandidates_nil (lang k : String) : specCandidates [] lang k = [] := rfl

theorem specCandidates_cons_not {lang : String} {t : Term}
    (h : admitted lang t = false) (rest : List Term) (k : String) :
    specCandidates (t :: rest) lang k = specCandidates rest lang k := by
  simp [specCandidates, List.filter_cons, h]

theorem specCandidates_cons_pos {lang : String} {t : Term}
    (h : admitted lang t = true) (rest : List Term) (k : String) :
    specCandidates (t :: rest) lang k =
      if pyLower t.source = k then t :: specCandidates rest lang k
      else specCandidates rest lang k := by
  by_cases hkey : pyLower t.source = k
  · simp [specCandidates, List.filter_cons, h, hkey]
  · simp [specCandidates, List.filter_cons, h, hkey]

theorem loweredSources_cons_not {lang : String} {t : Term}
    (h : admitted lang t = false) (rest : List Term) :
    loweredSources (t :: rest) lang = loweredSources rest lang := by
  simp [loweredSources, List.filter_cons, h]

theorem loweredSources_cons_pos {lang : String} {t : Term}
    (h : admitted lang t = true) (rest : List Term) :
    loweredSources (t :: rest) lang = pyLower t.source :: loweredSources rest lang := by
  simp [loweredSources, List.filter_cons, h]

theorem buildAux_closed (lang : String) : ∀ (terms : List Term) (acc : Expected),
    (acc.map Prod.fst).Nodup →
    buildExpectedAux lang acc terms =
      acc.map (fun p => (p.1, p.2 ++ specCandidates terms lang p.1)) ++
      (dedupFrom (acc.map Prod.fst) (loweredSources terms lang)).map
        (fun k => (k, specCandidates terms lang k)) := by
  intro terms
  induction terms with
  | nil =>
    intro acc _
    simp [buildExpectedAux, specCandidates, loweredSources, dedupFrom]
  | cons t rest ih =>
    intro acc hnd
    by_cases ha : admitted lang t = true
    · have hstep : buildExpectedAux lang acc (t :: rest) =
          buildExpectedAux lang (setdefaultAppend acc (pyLower t.source) t) rest := by
        simp [buildExpectedAux, ha]
      have hCkey : specCandidates (t :: rest) lang (pyLower t.source) =
          t :: specCandidates rest lang (pyLower t.source) := by
        rw [specCandidates_cons_pos ha, if_pos rfl]
      have hCne : ∀ k', k' ≠ pyLower t.source →
          specCandidates (t :: rest) lang k' = specCandidates rest lang k' := by
        intro k' hne
        rw [specCandidates_cons_pos ha, if_neg (fun h => hne h.symm)]
      rw [hstep, loweredSources_cons_pos ha]
      by_cases hk : pyLower t.source ∈ acc.map Prod.fst
      · have hkeys := setdefault_keys_mem (t := t) acc hk
        have hnd' : ((setdefaultAppend acc (pyLower t.source) t).map Prod.fst).Nodup := by
          rw [hkeys]; exact hnd
        rw [ih _ hnd', hkeys]
        rw [show dedupFrom (acc.map Prod.fst)
              (pyLower t.source :: loweredSources rest lang) =
            dedupFrom (acc.map Prod.fst) (loweredSources rest lang) from by
          simp only [dedupFrom, if_pos hk]]
        congr 1
        · exact setdefault_map (pyLower t.source) t _ _ hCkey hCne acc hnd hk
        · refine List.map_congr_left ?_
          intro k hkmem
          have hknot : k ∉ acc.map Prod.fst := ((mem_dedupFrom _ _).mp hkmem).2
          rw [hCne k (fun h => hknot (h ▸ hk))]
      · have heq := setdefault_not_mem (t := t) acc hk
        have hkeys : (setdefaultAppend acc (pyLower t.source) t).map Prod.fst =
            acc.map Prod.fst ++ [pyLower t.source] := by
          rw [heq, List.map_append]; rfl
        have hnd' : ((setdefaultAppend acc (pyLower t.source) t).map Prod.fst).Nodup := by
          rw [hkeys]
          refine List.Nodup.append hnd (List.nodup_singleton _) ?_
          intro a ha1 ha2
          rw [List.mem_singleton] at ha2
          exact hk (ha2 ▸ ha1)
        rw [ih _ hnd', heq]
        rw [show List.map Prod.fst (acc ++ [(pyLower t.source, [t])]) =
              acc.map Prod.fst ++ [pyLower t.source] from by
          rw [List.map_append]; rfl]
        rw [show dedupFrom (acc.map Prod.fst)
              (pyLower t.source :: loweredSources rest lang) =
            pyLower t.source ::
              dedupFrom (pyLower t.source :: acc.map Prod.fst)
                (loweredSources rest lang) from by
          simp only [dedupFrom, if_neg hk]]
        rw [dedupFrom_congr_seen (loweredSources rest lang)
          (acc.map Prod.fst ++ [pyLower t.source])
          (pyLower t.source :: acc.map Prod.fst)
          (by intro x; simp [or_comm])]
        have hA : acc.map (fun p => (p.1, p.2 ++ specCandidates rest lang p.1)) =
            acc.map (fun p => (p.1, p.2 ++ specCandidates (t :: rest) lang p.1)) := by
          refine List.map_congr_left ?_
          intro p hp
          rw [hCne p.1 (fun h => hk (h ▸ List.mem_map_of_mem Prod.fst hp))]
        have hD : (dedupFrom (pyLower t.source :: acc.map Prod.fst)
              (loweredSources rest lang)).map
                (fun k => (k, specCandidates rest lang k)) =
            (dedupFrom (pyLower t.source :: acc.map Prod.fst)
              (loweredSources rest lang)).map
                (fun k => (k, specCandidates (t :: rest) lang k)) := by
          refine List.map_congr_left ?_
          intro k hkmem
          have hknot := ((mem_dedupFrom _ _).mp hkmem).2
          rw [hCne k (fun h => hknot (by simp [h]))]
        rw [List.map_append, hA, hD]
        simp [hCkey, List.append_assoc]
    · have ha' : admitted lang t = false := by
        cases h : admitted lang t
        · rfl
        · exact absurd h ha
      have hstep : buildExpectedAux lang acc (t :: rest) =
          buildExpectedAux lang acc rest := by
        simp [buildExpectedAux, ha']
      rw [hstep, ih acc hnd, loweredSources_cons_not ha']
      have hC : ∀ k', specCandidates (t :: rest) lang k' = specCandidates rest lang k' :=
        fun k' => specCandidates_cons_not ha' rest k'
      congr 1
      · refine List.map_congr_left ?_
        intro p _
        rw [hC p.1]
      · refine List.map_congr_left ?_
        intro k _
        rw [hC k]

/-- The `expected` dict equals the spec-shaped ordered multimap: keys in
first-occurrence order of the lower-cased admitted sources, each mapped to the
glossary-order list of admitted terms with that lower-cased source. -/
theorem buildExpected_eq_spec (terms : List Term) (lang : String) :
    buildExpected terms lang =
      (specKeys terms lang).map (fun k => (k, specCandidates terms lang k)) := by
  have h := buildAux_closed lang terms [] (by simp)
  simpa [buildExpected, specKeys] using h

theorem mem_buildExpected {terms : List Term} {lang k : String} {ts : List Term} :
    (k, ts) ∈ buildExpected terms lang ↔
      k ∈ specKeys terms lang ∧ ts = specCandidates terms lang k := by
  rw [buildExpected_eq_spec]
  constructor
  · intro h
    obtain ⟨k', hk', heq⟩ := List.mem_map.mp h
    obtain ⟨rfl, rfl⟩ := Prod.mk.injEq .. ▸ heq
    exact ⟨hk', rfl⟩
  · rintro ⟨hk, rfl⟩
    exact List.mem_map.mpr ⟨k, hk, rfl⟩

theorem mem_specCandidates {terms : List Term} {lang k : String} {t : Term} :
    t ∈ specCandidates terms lang k ↔
      t ∈ terms ∧ admitted lang t = true ∧ pyLower t.source = k := by
  simp only [specCandidates, List.mem_filter, beq_iff_eq]
  tauto

theorem mem_specKeys {terms : List Term} {lang k : String} :
    k ∈ specKeys terms lang ↔
      ∃ t, t ∈ terms ∧ admitted lang t = true ∧ pyLower t.source = k := by
  rw [specKeys, mem_dedupFrom]
  simp only [loweredSources, List.mem_map, List.mem_filter, List.not_mem_nil,
    not_false_iff, and_true]
  tauto

theorem admitted_iff {lang : String} {t : Term} :
    admitted lang t = true ↔ (lang = "" ∨ t.language = lang ∨ t.language = "") := by
  simp [admitted]

theorem issueCond_iff {mstr : String} {t : Term} :
    issueCond mstr t = true ↔
      (strContains (pyLower mstr) (pyLower t.target) = false ∧ t.target ≠ "") := by
  simp [issueCond]

theorem mem_keyIssues_buildExpected {terms : List Term} {lang midC mstrC : String}
    {i : Issue} :
    i ∈ keyIssues midC mstrC (buildExpected terms lang) ↔
      ∃ t, t ∈ terms ∧ admitted lang t = true ∧
        strContains (pyLower midC) (pyLower t.source) = true ∧
        issueCond mstrC t = true ∧ i = mkIssue mstrC t := by
  rw [mem_keyIssues]
  constructor
  · rintro ⟨k, ts, hm, hc, hi⟩
    obtain ⟨hk, rfl⟩ := mem_buildExpected.mp hm
    obtain ⟨t, ht, hcond, rfl⟩ := (mem_termIssues _).mp hi
    obtain ⟨hterms, hadm, hkey⟩ := mem_specCandidates.mp ht
    exact ⟨t, hterms, hadm, hkey ▸ hc, hcond, rfl⟩
  · rintro ⟨t, hterms, hadm, hc, hcond, rfl⟩
    refine ⟨pyLower t.source, specCandidates terms lang (pyLower t.source), ?_, hc, ?_⟩
    · exact mem_buildExpected.mpr ⟨mem_specKeys.mpr ⟨t, hterms, hadm, rfl⟩, rfl⟩
    · exact (mem_termIssues _).mpr
        ⟨t, mem_specCandidates.mpr ⟨hterms, hadm, rfl⟩, hcond, rfl⟩

theorem unescapeN_eq_nil : ∀ {l : List Char}, unescapeN l = [] → l = []
  | [], _ => rfl
  | [c], h => by simp [unescapeN] at h
  | c1 :: c2 :: rest, h => by
    rw [unescapeN] at h
    split at h <;> simp at h

theorem unescapeQ_eq_nil : ∀ {l : List Char}, unescapeQ l = [] → l = []
  | [], _ => rfl
  | [c], h => by simp [unescapeQ] at h
  | c1 :: c2 :: rest, h => by
    rw [unescapeQ] at h
    split at h <;> simp at h

theorem string_data_eq_nil {s : String} (h : s.data = []) : s = "" := by
  cases s with
  | mk d => cases h; rfl

theorem unescape_eq_empty {s : String} (h : unescape s = "") : s = "" := by
  have h1 : unescapeQ (unescapeN s.data) = ([] : List Char) := congrArg String.data h
  exact string_data_eq_nil (unescapeN_eq_nil (unescapeQ_eq_nil h1))

theorem string_data_append (a b : String) : (a ++ b).data = a.data ++ b.data := by
  cases a; cases b; rfl

theorem termIssues_eq_flatten (mstr : String) : ∀ ts : List Term,
    termIssues mstr ts =
      (ts.map fun t => if issueCond mstr t then [mkIssue mstr t] else []).flatten := by
  intro ts
  induction ts with
  | nil => rfl
  | cons t rest ih =>
    by_cases h : issueCond mstr t
    · simp [termIssues, h, ih]
    · simp [termIssues, h, ih]

theorem keyIssues_map_keys (mid mstr : String) (cand : String → List Term) :
    ∀ ks : List String,
    keyIssues mid mstr (ks.map fun k => (k, cand k)) =
      (ks.map fun k =>
        if strContains (pyLower mid) k then termIssues mstr (cand k) else []).flatten := by
  intro ks
  induction ks with
  | nil => rfl
  | cons k rest ih =>
    by_cases h : strContains (pyLower mid) k
    · simp [keyIssues, h, ih]
    · simp [keyIssues, h, ih]

theorem keyIssues_pinned (terms : List Term) (lang mid mstr : String) :
    keyIssues mid mstr (buildExpected terms lang) =
      pinnedEntryIssues terms lang mid mstr := by
  rw [buildExpected_eq_spec, keyIssues_map_keys, pinnedEntryIssues]
  congr 1
  refine List.map_congr_left ?_
  intro k _
  by_cases h : strContains (pyLower mid) k
  · simp [h, termIssues_eq_flatten]
  · simp [h]

theorem poEntriesIssues_eq (expected : Expected) : ∀ l : List (String × String),
    poEntriesIssues expected l =
      (l.map fun e => poEntryIssues expected e.1 e.2).flatten := by
  intro l
  induction l with
  | nil => rfl
  | cons e rest ih =>
    obtain ⟨a, b⟩ := e
    simp [poEntriesIssues, ih]

theorem tsMessagesIssues_eq (expected : Expected) : ∀ l : List XElem,
    tsMessagesIssues expected l = (l.map (tsEntryIssues expected)).flatten := by
  intro l
  induction l with
  | nil => rfl
  | cons m rest ih => simp [tsMessagesIssues, ih]

theorem poEntryIssues_pinned (terms : List Term) (lang : String) (e : String × String) :
    poEntryIssues (buildExpected terms lang) e.1 e.2 =
      (if e.1 = "" ∨ e.2 = "" then []
       else pinnedEntryIssues terms lang (unescape e.1) (unescape e.2)) := by
  rw [poEntryIssues]
  by_cases h : e.1 = "" ∨ e.2 = ""
  · rw [if_pos h, if_pos h]
  · rw [if_neg h, if_neg h, keyIssues_pinned]

theorem tsEntryIssues_pinned (terms : List Term) (lang : String) (msg : XElem) :
    tsEntryIssues (buildExpected terms lang) msg = tsEntrySpecOrder terms lang msg := by
  cases hse : msg.findChild "source" with
  | none => simp [tsEntryIssues, tsEntrySpecOrder, hse]
  | some se =>
    cases hte : msg.findChild "translation" with
    | none => simp [tsEntryIssues, tsEntrySpecOrder, hse, hte]
    | some te =>
      by_cases h : pyStrip (se.text.getD "") = "" ∨ pyStrip (te.text.getD "") = ""
      · simp only [tsEntryIssues, tsEntrySpecOrder, hse, hte]
        rw [if_pos h, if_pos h]
      · simp only [tsEntryIssues, tsEntrySpecOrder, hse, hte]
        rw [if_neg h, if_neg h, keyIssues_pinned]

/-- Claim C1: for a PO entry that is not skipped, an issue is emitted if and
only if some glossary term admitted by the language filter has its lower-cased
source contained in the entry's lower-cased (unescaped) source text, a
non-empty target, and a lower-cased target that is not contained in the
entry's lower-cased translated text; the issue carries the term's source and
target and the translated text truncated to its first 80 characters, case
preserved. -/
theorem po_issue_iff (g : Glossary) (lang msgid msgstr : String) (i : Issue)
    (hmid : msgid ≠ "") (hmstr : msgstr ≠ "") :
    i ∈ poEntryIssues (buildExpected g.terms lang) msgid msgstr ↔
      ∃ t, t ∈ g.terms ∧ (lang = "" ∨ t.language = lang ∨ t.language = "") ∧
        strContains (pyLower (unescape msgid)) (pyLower t.source) = true ∧
        t.target ≠ "" ∧
        strContains (pyLower (unescape msgstr)) (pyLower t.target) = false ∧
        i = { source := t.source, expected := t.target,
              found := pyTrunc80 (unescape msgstr) } := by
  rw [poEntryIssues, if_neg (by tauto)]
  rw [mem_keyIssues_buildExpected]
  constructor
  · rintro ⟨t, h1, h2, h3, h4, rfl⟩
    obtain ⟨hc, hne⟩ := issueCond_iff.mp h4
    exact ⟨t, h1, admitted_iff.mp h2, h3, hne, hc, rfl⟩
  · rintro ⟨t, h1, h2, h3, hne, hc, rfl⟩
    exact ⟨t, h1, admitted_iff.mpr h2, h3, issueCond_iff.mpr ⟨hc, hne⟩, rfl⟩

/-- Claim C3: in both checkers a glossary term lands in the `expected` lookup
(and is hence eligible to produce issues) if and only if its language is
empty, or equals the document's detected language, or the detected language is
empty. -/
theorem language_filter_iff (terms : List Term) (lang : String) (t : Term)
    (ht : t ∈ terms) :
    (∃ p ∈ buildExpected terms lang, t ∈ p.2) ↔
      (t.language = "" ∨ t.language = lang ∨ lang = "") := by
  constructor
  · rintro ⟨⟨k, ts⟩, hp, htm⟩
    obtain ⟨_, rfl⟩ := mem_buildExpected.mp hp
    obtain ⟨_, hadm, _⟩ := mem_specCandidates.mp htm
    rcases admitted_iff.mp hadm with h | h | h
    · exact Or.inr (Or.inr h)
    · exact Or.inr (Or.inl h)
    · exact Or.inl h
  · intro h
    have hadm : admitted lang t = true := admitted_iff.mpr (by tauto)
    refine ⟨(pyLower t.source, specCandidates terms lang (pyLower t.source)), ?_, ?_⟩
    · exact mem_buildExpected.mpr ⟨mem_specKeys.mpr ⟨t, ht, hadm, rfl⟩, rfl⟩
    · exact mem_specCandidates.mpr ⟨ht, hadm, rfl⟩

/-- Claim C6: an entry whose source or target text is empty — after unescaping
for PO entries; absent child or text empty after trimming for TS messages —
produces no issue at all, whatever the glossary holds. -/
theorem skip_empty_entries :
    (∀ (expected : Expected) (msgid msgstr : String),
       unescape msgid = "" ∨ unescape msgstr = "" →
       poEntryIssues expected msgid msgstr = []) ∧
    (∀ (expected : Expected) (msg : XElem),
       msg.findChild "source" = none ∨ msg.findChild "translation" = none ∨
       (∀ se, msg.findChild "source" = some se → pyStrip (se.text.getD "") = "") ∨
       (∀ te, msg.findChild "translation" = some te → pyStrip (te.text.getD "") = "") →
       tsEntryIssues expected msg = []) := by
  constructor
  · intro expected msgid msgstr h
    have h' : msgid = "" ∨ msgstr = "" := by
      rcases h with h | h
      · exact Or.inl (unescape_eq_empty h)
      · exact Or.inr (unescape_eq_empty h)
    rw [poEntryIssues, if_pos h']
  · intro expected msg h
    cases hse : msg.findChild "source" with
    | none => simp [tsEntryIssues, hse]
    | some se =>
      cases hte : msg.findChild "translation" with
      | none => simp [tsEntryIssues, hse, hte]
      | some te =>
        have hempty : pyStrip (se.text.getD "") = "" ∨ pyStrip (te.text.getD "") = "" := by
          rcases h with h | h | h | h
          · rw [hse] at h; cases h
          · rw [hte] at h; cases h
          · exact Or.inl (h se hse)
          · exact Or.inr (h te hte)
        simp only [tsEntryIssues, hse, hte]
        rw [if_pos hempty]

theorem detectLangAux_spec : ∀ l : List Char,
    detectLangAux l = (match (suffixes l).filterMap langTokenAt with
      | [] => ""
      | tok :: _ => String.mk tok) := by
  intro l
  induction l with
  | nil => rfl
  | cons c rest ih =>
    cases h : langTokenAt (c :: rest) with
    | some tok => simp [detectLangAux, suffixes, List.filterMap_cons, h]
    | none => simp [detectLangAux, suffixes, List.filterMap_cons, h, ih]

/-- Claim C8: the detected PO language is the token of the first position, in
left-to-right scan order, at which the pattern succeeds — the literal
followed by (possibly empty) whitespace and a maximal non-whitespace token —
and the empty string (with no error) when no position matches. -/
theorem detectLang_first_match (content : String) :
    detectLang content = detectLangSpec content := by
  rw [detectLang, detectLangSpec, detectLangAux_spec]

/-- Claim C9: a term with empty source that passes the language filter matches
every non-skipped entry of either format, so each such entry whose lower-cased
translation misses the term's non-empty lower-cased target yields an issue. -/
theorem empty_source_always_matches :
    (∀ (g : Glossary) (lang msgid msgstr : String) (t : Term),
       t ∈ g.terms → t.source = "" →
       (lang = "" ∨ t.language = lang ∨ t.language = "") →
       msgid ≠ "" → msgstr ≠ "" → t.target ≠ "" →
       strContains (pyLower (unescape msgstr)) (pyLower t.target) = false →
       mkIssue (unescape msgstr) t ∈
         poEntryIssues (buildExpected g.terms lang) msgid msgstr) ∧
    (∀ (g : Glossary) (lang : String) (msg se te : XElem) (t : Term),
       t ∈ g.terms → t.source = "" →
       (lang = "" ∨ t.language = lang ∨ t.language = "") →
       msg.findChild "source" = some se →
       msg.findChild "translation" = some te →
       pyStrip (se.text.getD "") ≠ "" → pyStrip (te.text.getD "") ≠ "" →
       t.target ≠ "" →
       strContains (pyLower (pyStrip (te.text.getD ""))) (pyLower t.target) = false →
       mkIssue (pyStrip (te.text.getD "")) t ∈
         tsEntryIssues (buildExpected g.terms lang) msg) := by
  have hmain : ∀ (terms : List Term) (lang midC mstrC : String) (t : Term),
      t ∈ terms → t.source = "" →
      (lang = "" ∨ t.language = lang ∨ t.language = "") →
      t.target ≠ "" →
      strContains (pyLower mstrC) (pyLower t.target) = false →
      mkIssue mstrC t ∈ keyIssues midC mstrC (buildExpected terms lang) := by
    intro terms lang midC mstrC t ht hsrc hadm htgt hc
    refine mem_keyIssues_buildExpected.mpr
      ⟨t, ht, admitted_iff.mpr hadm, ?_, issueCond_iff.mpr ⟨hc, htgt⟩, rfl⟩
    rw [hsrc]
    exact containsSub_nil_needle _
  constructor
  · intro g lang msgid msgstr t ht hsrc hadm hmid hmstr htgt hc
    rw [poEntryIssues, if_neg (by tauto)]
    exact hmain g.terms lang (unescape msgid) (unescape msgstr) t ht hsrc hadm htgt hc
  · intro g lang msg se te t ht hsrc hadm hse hte hsne htne htgt hc
    simp only [tsEntryIssues, hse, hte]
    rw [if_neg (by tauto)]
    exact hmain g.terms lang (pyStrip (se.text.getD ""))
      (pyStrip (te.text.getD "")) t ht hsrc hadm htgt hc

/-- Claim C10: the checker's output order is fully pinned and deterministic —
issues are grouped by entry in document order; within one entry, keys of the
`expected` lookup are visited in first-occurrence order of each lower-cased
source among the admitted glossary terms, and candidate terms within one key
in glossary order; this holds for both the PO and the TS paths, so two runs
on the same glossary and content produce identical lists. -/
theorem pinned_output_order :
    (∀ (g : Glossary) (content : String),
       checkPoContent g content = checkPoSpecOrder g content) ∧
    (∀ (g : Glossary) (root : XElem),
       checkTsRoot g root = checkTsSpecOrder g root) := by
  constructor
  · intro g content
    rw [checkPoContent, checkPoSpecOrder, poEntriesIssues_eq]
    congr 1
    refine List.map_congr_left ?_
    intro e _
    exact poEntryIssues_pinned g.terms (detectLang content) e
  · intro g root
    rw [checkTsRoot, checkTsSpecOrder, tsMessagesIssues_eq]
    congr 1
    refine List.map_congr_left ?_
    intro m _
    exact tsEntryIssues_pinned g.terms (root.get "language" "") m

/-- Claim C4: for a path whose lower-cased extension is neither `.po` nor
`.ts`, `check_consistency` fails with the unsupported-format `ValueError`
whose message contains the offending extension, for every filesystem — in
particular for one where the path does not exist, so no file I/O is
involved: the outcome depends only on the path string. -/
theorem unsupported_extension (g : Glossary) (path : String) (fs : FileSystem)
    (h1 : pyLower (splitext path).2 ≠ ".po")
    (h2 : pyLower (splitext path).2 ≠ ".ts") :
    check_consistency g path fs =
      Except.error (CheckError.valueError
        (unsupportedMessage (pyLower (splitext path).2))) ∧
    strContains (unsupportedMessage (pyLower (splitext path).2))
      (pyLower (splitext path).2) = true := by
  constructor
  · simp [check_consistency, h1, h2]
  · rw [show unsupportedMessage (pyLower (splitext path).2) =
        "Unsupported file format: " ++ pyLower (splitext path).2 from rfl]
    rw [strContains, string_data_append]
    exact containsSub_append_self _ _

/-- Witness for claim C1 at a concrete glossary and PO entry. -/
theorem po_issue_iff_witness :
    ({ source := "File", expected := "Fil", found := "Oppna Dokument" } : Issue) ∈
      poEntryIssues (buildExpected [{ source := "File", target := "Fil" }] "")
        "Open File" "Oppna Dokument" :=
  (po_issue_iff (Glossary.mk [{ source := "File", target := "Fil" }]) ""
      "Open File" "Oppna Dokument"
      { source := "File", expected := "Fil", found := "Oppna Dokument" }
      (by decide) (by decide)).mpr
    ⟨{ source := "File", target := "Fil" }, by decide⟩

/-- Witness for claim C3: a term with language `sv` reaches the lookup of a
document with no detected language. -/
theorem language_filter_iff_witness :
    ∃ p ∈ buildExpected [{ source := "File", target := "Fil", language := "sv" }] "",
      ({ source := "File", target := "Fil", language := "sv" } : Term) ∈ p.2 :=
  (language_filter_iff [{ source := "File", target := "Fil", language := "sv" }] ""
    { source := "File", target := "Fil", language := "sv" } (by decide)).mpr
    (by decide)

/-- Witness for claim C4 at `file.txt` over a filesystem with no files at
all. -/
theorem unsupported_extension_witness :
    check_consistency (Glossary.mk []) "file.txt"
        { readText := fun _ => none, parseXml := fun _ => none } =
      Except.error (CheckError.valueError (unsupportedMessage ".txt")) ∧
    strContains (unsupportedMessage ".txt") ".txt" = true := by
  have h := unsupported_extension (Glossary.mk []) "file.txt"
    { readText := fun _ => none, parseXml := fun _ => none }
    (by decide) (by decide)
  have e : pyLower (splitext "file.txt").2 = ".txt" := by decide
  rw [e] at h
  exact h

/-- Witness for claim C6: an empty PO msgid and a TS message with no source
child each produce no issue. -/
theorem skip_empty_entries_witness :
    poEntryIssues [("file", [{ source := "File", target := "Fil" }])] "" "x" = [] ∧
    tsEntryIssues [("file", [{ source := "File", target := "Fil" }])]
      (XElem.elem "message" [] none []) = [] :=
  ⟨skip_empty_entries.1 [("file", [{ source := "File", target := "Fil" }])] "" "x"
      (Or.inl (by decide)),
   skip_empty_entries.2 [("file", [{ source := "File", target := "Fil" }])]
      (XElem.elem "message" [] none []) (Or.inl rfl)⟩

/-- Witness for claim C9: an empty-source term flags an arbitrary non-skipped
PO entry whose translation lacks the target. -/
theorem empty_source_always_matches_witness :
    mkIssue (unescape "y") { source := "", target := "Fil" } ∈
      poEntryIssues (buildExpected [{ source := "", target := "Fil" }] "") "x" "y" :=
  empty_source_always_matches.1
    (Glossary.mk [{ source := "", target := "Fil" }]) "" "x" "y"
    { source := "", target := "Fil" }
    (by decide) (by decide) (by decide) (by decide) (by decide) (by decide)
    (by decide)

end L10n
